import Mathlib

/-!
Verification of the permission-check engine in
`internal/services/permissionService.go`.

The embedding below translates the Go source into Lean:

* `Decision`, `sendDecision`, `fail` (`failRun`), the error values, the
  `union`/`intersection` combinators, `getUsers`, the leaf `check` task,
  the dispatcher (`c`, `checkRewrite`, `checkLeaf`, `set`) and `Check`
  are translated from the source file.
* Types owned by packages outside the provided source tree
  (`pkg/tuple`, `pkg/dsl/schema`, `internal/entities`) are modelled from
  the spec; each such definition carries a doc comment saying so.
* Goroutine/channel behaviour is embedded in two complementary ways:
  - the combinators are specified over an explicit *event trace*
    (`Ev`): the sequence in which sibling decisions and the caller's
    cancellation are observed on the `select`; this quantifies over
    every arrival order;
  - the recursive engine (`checkRun`, `taskRun`, …) is given a
    sequential-schedule semantics: spawned tasks run to completion in
    spawn order, each task's *list of emitted decisions* is recorded,
    and the one shared mutable cell (the `*int` depth counter of
    `Request`, mutated by `decrease`) is threaded as explicit state.
    A task that would block forever (a combinator waiting on a channel
    nobody writes) evaluates to `none`.
* Recursion through the possibly-cyclic tuple graph is bounded by an
  explicit `fuel : Nat` (the Go code recurses unboundedly once the
  depth guard is passed; any fuel larger than the actual recursion
  depth of a concrete run gives the exact behaviour).
-/

namespace Permify

/-- Error values declared at the top of the source file, plus `ParseError`
(spec §6, raised by the external object parser) and `StoreError` (spec §7,
an error propagated verbatim from the tuple store). -/
inductive Err
  | DepthError
  | CanceledError
  | ActionCannotFoundError
  | UndefinedChildTypeError
  | UndefinedChildKindError
  | ParseError
  | StoreError (msg : String)
deriving DecidableEq, Repr

/-- `Decision` struct: `Can bool; Err error`.  A Go `error` is `nil` or a
value, embedded as `Option Err`. -/
structure Decision where
  Can : Bool
  Err : Option Err
deriving DecidableEq, Repr

/-- `sendDecision(can, err)` constructor. -/
def sendDecision (can : Bool) (err : Option Err) : Decision :=
  { Can := can, Err := err }

/-- Modelled from the spec (§3, pkg `tuple` is outside the provided
source): an object is `{namespace, id}`. -/
structure Object where
  Namespace : String
  ID : String
deriving DecidableEq, Repr

/-- Modelled from the spec (§3, pkg `tuple` is outside the provided
source): a subject is either a bare literal identifier or a userset
reference `{object, relation}`. -/
inductive User
  | literal (id : String)
  | userset (obj : Object) (rel : String)
deriving DecidableEq, Repr

/-- Modelled from the spec: `t.IsUser()` distinguishes a literal subject
from a userset edge. -/
def User.IsUser : User → Bool
  | .literal _ => true
  | .userset _ _ => false

/-- Modelled from the spec (§3): equality between two subjects is
structural (namespace+id+relation, or literal id). -/
def User.Equals : User → User → Bool
  | .literal a, .literal b => a == b
  | .userset o1 r1, .userset o2 r2 =>
      o1.Namespace == o2.Namespace && o1.ID == o2.ID && r1 == r2
  | _, _ => false

/-- Modelled from the spec (pkg `entities` is outside the provided
source): the fields of a stored relation tuple read by `getUsers`. -/
structure RelationTuple where
  UsersetEntity : String
  UsersetObjectID : String
  UsersetRelation : String
deriving DecidableEq, Repr

/-- The tuple-store client (`repositories.IRelationTupleRepository`,
external collaborator, spec §6): `QueryTuples(namespace, objectId,
relation)` returns the matching facts or a store error. -/
def Repo : Type :=
  String → String → String → Except Err (List RelationTuple)

/-- Modelled from the spec (glossary): the self-reference marker
`tuple.ELLIPSIS`. -/
def ELLIPSIS : String := "..."

/-- Splits a character list at the first occurrence of `sep`;
`none` when `sep` does not occur. -/
def splitCharAux (sep : Char) : List Char → List Char → Option (String × String)
  | _, [] => none
  | acc, ch :: rest =>
      if ch = sep then some (String.mk acc.reverse, String.mk rest)
      else splitCharAux sep (ch :: acc) rest

/-- Modelled from the spec (§3, pkg `tuple` is outside the provided
source): `relation.Split()` decomposes an optionally composite relation
name `"tuplesetRelation.defaultRelation"`; the first component is
queried, the second replaces the self-reference marker.  A
non-composite name serves as both components ("same relation, different
object", spec glossary). -/
def splitRelation (r : String) : String × String :=
  match splitCharAux '.' [] r.data with
  | some p => p
  | none => (r, r)

/-- `getUsers`: queries the store for `(object.Namespace, object.ID,
r[0])` and converts each returned tuple to a `User` — a userset edge
when `UsersetEntity` is non-empty (resolving the ellipsis marker to the
default relation), a literal subject otherwise. -/
def getUsers (repo : Repo) (obj : Object) (rel : String) : Except Err (List User) :=
  let r := splitRelation rel
  match repo obj.Namespace obj.ID r.1 with
  | .error e => .error e
  | .ok en =>
      .ok (en.map (fun t =>
        if t.UsersetEntity ≠ "" then
          User.userset ⟨t.UsersetEntity, t.UsersetObjectID⟩
            (if t.UsersetRelation = ELLIPSIS then r.2 else t.UsersetRelation)
        else
          User.literal t.UsersetObjectID))

/-- `fail(err)`: the decisions the returned `CheckFunction` emits when it
is actually executed — exactly one, `(false, err)`. -/
def failRun (e : Err) : List Decision :=
  [sendDecision false (some e)]

/-! ## Combinators over an explicit event trace

`union(ctx, functions)` and `intersection(ctx, functions)` spawn all
tasks and then run a `select` loop `len(functions)` times.  An `Ev`
records what one `select` observes: either the next sibling decision
arriving on the channel, or the caller's `ctx.Done()`.  `unionRun n
evs` is the combinator's result for `n` tasks when the loop observes
the events of `evs` in order; `none` means the loop blocked forever
(events ran out with the loop still waiting). -/

/-- One observation of the combinator's `select`. -/
inductive Ev
  | arrive (d : Decision)
  | cancel
deriving DecidableEq, Repr

/-- The `select` loop of `union`: runs `n` iterations, folding observed
events exactly as the source does. -/
def unionLoop : Nat → List Ev → Option Decision
  | 0, _ => some (sendDecision false none)
  | _ + 1, [] => none
  | _ + 1, Ev.cancel :: _ => some (sendDecision false (some Err.CanceledError))
  | i + 1, Ev.arrive d :: rest =>
      if d.Err = none ∧ d.Can = true then some (sendDecision true none)
      else if d.Err ≠ none then some (sendDecision false d.Err)
      else unionLoop i rest

/-- `union`: the `len(functions) == 0` early return, then the loop. -/
def unionRun (n : Nat) (evs : List Ev) : Option Decision :=
  if n = 0 then some (sendDecision false none) else unionLoop n evs

/-- The `select` loop of `intersection`. -/
def intersectionLoop : Nat → List Ev → Option Decision
  | 0, _ => some (sendDecision true none)
  | _ + 1, [] => none
  | _ + 1, Ev.cancel :: _ => some (sendDecision false (some Err.CanceledError))
  | i + 1, Ev.arrive d :: rest =>
      if d.Err = none ∧ d.Can = false then some (sendDecision false none)
      else if d.Err ≠ none then some (sendDecision false d.Err)
      else intersectionLoop i rest

/-- `intersection`: the `len(functions) == 0` early return, then the
loop; note the empty case returns `(false, nil)` although the exhausted
loop returns `(true, nil)`. -/
def intersectionRun (n : Nat) (evs : List Ev) : Option Decision :=
  if n = 0 then some (sendDecision false none) else intersectionLoop n evs

/-- How `union` over a single task folds that task's (first) decision:
the one iteration of the `select` loop applied to the sole arrival.
Used to model the `union(ctx, []CheckFunction{...})` wrappers in `c`
and in the leaf resolver's recursive step. -/
def union1 (d : Decision) : Decision :=
  if d.Err = none ∧ d.Can = true then sendDecision true none
  else if d.Err ≠ none then sendDecision false d.Err
  else sendDecision false none

/-! ## The leaf resolver (`check`)

`checkRun repo fuel obj rel subject depth` is the sequential-schedule
run of the `CheckFunction` returned by
`service.check(ctx, obj, rel, re)` where `re.Subject = subject` and the
shared depth cell currently holds `depth`.  It returns
`some (emitted decisions, final value of the shared depth cell)`, or
`none` when the run blocks or exceeds `fuel`.

Faithful to the source, including its slips:
* at `depth ≤ 0` the task sends `(false, DepthError)` and — the `return`
  is missing in the source — *continues* to the store query;
* on a store error the source evaluates `fail(err)` but discards the
  returned function without invoking it, so nothing further is emitted;
* a matching subject emits `(true, nil)`;
* the first userset edge is followed: `re.decrease()` mutates the shared
  depth, the recursive task is run through `union` over one function
  (which observes the recursive task's first decision and folds it as
  `union1`), and scanning stops;
* an exhausted scan emits `(false, nil)`. -/

/-- The fact scan of the leaf resolver (the `for _, t := range users`
loop); `rec` is the recursive `service.check` call already applied to
everything but the edge's object, relation and the shared depth. -/
def scanStep (rec : Object → String → Int → Option (List Decision × Int))
    (subject : User) : List User → Int → Option (List Decision × Int)
  | [], depth => some ([sendDecision false none], depth)
  | t :: rest, depth =>
      if t.Equals subject then some ([sendDecision true none], depth)
      else
        match t with
        | User.literal _ => scanStep rec subject rest depth
        | User.userset eo er =>
            match rec eo er (depth - 1) with
            | none => none
            | some (ds, d2) =>
                match ds.head? with
                | none => none
                | some d => some ([union1 d], d2)

/-- The leaf `check` task (see the section comment above). -/
def checkRun (repo : Repo) : Nat → Object → String → User → Int →
    Option (List Decision × Int)
  | 0, _, _, _, _ => none
  | fuel + 1, obj, rel, subject, depth =>
      let pre : List Decision :=
        if depth ≤ 0 then [sendDecision false (some Err.DepthError)] else []
      match getUsers repo obj rel with
      | Except.error _ => some (pre, depth)
      | Except.ok users =>
          match scanStep (fun eo er dp => checkRun repo fuel eo er subject dp)
              subject users depth with
          | none => none
          | some (ds, d2) => some (pre ++ ds, d2)

/-! ## The rule tree and the dispatcher

`schema.Child` is an interface dispatched on string-valued kind and
type tags; the spec (§3) describes the closed variant the tags encode.
The `other` constructors stand for any tag outside the defined set
(the `default` branches of `checkRewrite` / `checkLeaf`); the
`default` branch of `set` and the `fn == nil` check of `c` dispatch on
the *kind* tag, which the closed variant makes unrepresentable. -/

/-- Modelled from the spec (§3, pkg `dsl/schema` is outside the provided
source): the type tag of a Leaf node. -/
inductive LeafType
  | tupleToUserSet
  | computedUserSet
  | other
deriving DecidableEq, Repr

/-- Modelled from the spec (§3): the type tag of a Rewrite node. -/
inductive RewriteType
  | union
  | intersection
  | other
deriving DecidableEq, Repr

/-- Modelled from the spec (§3): a rule node is a Leaf (naming a
relation) or a Rewrite over child nodes. -/
inductive Child
  | leaf (t : LeafType) (value : String)
  | rewrite (t : RewriteType) (children : List Child)

/-- The `union` combinator's fold over its tasks under the sequential
schedule: tasks are run to completion in spawn order (`rec c depth`
returns a task's emitted decisions and the final shared depth), the
combinator observes each task's first decision and folds it exactly as
the `select` loop does, the shared depth threading through.  The empty
case is both the `len(functions) == 0` early return and the exhausted
loop, which agree for `union`. -/
def unionFoldH (rec : Child → Int → Option (List Decision × Int)) :
    List Child → Int → Option (Decision × Int)
  | [], depth => some (sendDecision false none, depth)
  | c :: rest, depth =>
      match rec c depth with
      | none => none
      | some (ds, d2) =>
          match ds.head? with
          | none => none
          | some d =>
              if d.Err = none ∧ d.Can = true then some (sendDecision true none, d2)
              else if d.Err ≠ none then some (sendDecision false d.Err, d2)
              else unionFoldH rec rest d2

/-- The `intersection` combinator's `select` loop under the sequential
schedule (the `len(functions) == 0` early return, which does *not*
agree with the exhausted loop here, is handled at the call site in
`taskRun`). -/
def intersectionFoldH (rec : Child → Int → Option (List Decision × Int)) :
    List Child → Int → Option (Decision × Int)
  | [], depth => some (sendDecision true none, depth)
  | c :: rest, depth =>
      match rec c depth with
      | none => none
      | some (ds, d2) =>
          match ds.head? with
          | none => none
          | some d =>
              if d.Err = none ∧ d.Can = false then some (sendDecision false none, d2)
              else if d.Err ≠ none then some (sendDecision false d.Err, d2)
              else intersectionFoldH rec rest d2

/-- Sequential-schedule run of the `CheckFunction` the dispatcher
compiles for a rule node (`checkRewrite` / `checkLeaf` / `set`):
returns the decisions the task emits and the final shared depth.

* Both leaf type tags build `service.check(ctx, request.Object,
  tuple.Relation(child.Value), request)`; an unknown tag builds
  `fail(UndefinedChildTypeError)` — likewise for an unknown rewrite tag.
* A rewrite node's task emits exactly one decision: the result of the
  matching combinator over the compiled children.

`fuel` only bounds the rule-tree height (the Go recursion here is
structural over the tree); any fuel above the height is exact. -/
def taskRun (repo : Repo) (subject : User) (obj : Object) :
    Nat → Child → Int → Option (List Decision × Int)
  | 0, _, _ => none
  | fuel + 1, Child.leaf t v, depth =>
      match t with
      | LeafType.tupleToUserSet => checkRun repo (fuel + 1) obj v subject depth
      | LeafType.computedUserSet => checkRun repo (fuel + 1) obj v subject depth
      | LeafType.other => some (failRun Err.UndefinedChildTypeError, depth)
  | fuel + 1, Child.rewrite t children, depth =>
      match t with
      | RewriteType.union =>
          match unionFoldH (fun c dp => taskRun repo subject obj fuel c dp)
              children depth with
          | none => none
          | some (d, d2) => some ([d], d2)
      | RewriteType.intersection =>
          match children with
          | [] => some ([sendDecision false none], depth)
          | _ =>
              match intersectionFoldH (fun c dp => taskRun repo subject obj fuel c dp)
                  children depth with
              | none => none
              | some (d, d2) => some ([d], d2)
      | RewriteType.other => some (failRun Err.UndefinedChildTypeError, depth)

/-- `service.c(ctx, request, child)`: compiles the node to a task and
runs `union(ctx, []CheckFunction{fn})` — a union of one, which observes
the task's first reported decision and folds it as one iteration of the
`select` loop (`union1`); blocks (`none`) when the task never reports.
The `fn == nil` / `UndefinedChildKindError` branch dispatches on the
kind tag, unrepresentable in the closed variant. -/
def cRun (repo : Repo) (fuel : Nat) (obj : Object) (subject : User)
    (child : Child) (depth : Int) : Option (Bool × Option Err) :=
  match taskRun repo subject obj fuel child depth with
  | none => none
  | some (ds, _) =>
      match ds.head? with
      | none => none
      | some d => some ((union1 d).Can, (union1 d).Err)

/-- Modelled from the spec (§6, pkg `dsl/schema` is outside the provided
source): a named action of an entity, mapping to its root rule node. -/
structure Action where
  Name : String
  Child : Child

/-- Modelled from the spec (§6): an entity's actions. -/
structure Entity where
  Actions : List Action

/-- Modelled from the spec (§6): the rule-tree provider, a mapping from
namespace to entity. -/
structure Schema where
  Entities : List (String × Entity)

/-- `service.schema.Entities[object.Namespace]`: Go map indexing, whose
miss yields the zero value (an entity with no actions). -/
def findEntity (sch : Schema) (ns : String) : Entity :=
  match sch.Entities.find? (fun p => p.1 == ns) with
  | some p => p.2
  | none => ⟨[]⟩

/-- The action-lookup loop of `Check`: the first action whose `Name`
matches jumps (`goto check`) with its child; otherwise `child` stays
`nil`. -/
def findAction : List Action → String → Option Child
  | [], _ => none
  | act :: rest, a => if act.Name == a then some act.Child else findAction rest a

/-- Modelled from the spec (§6, pkg `tuple` is outside the provided
source): `tuple.ConvertObject` parses `"namespace:id"`, failing on a
malformed string. -/
def ConvertObject (o : String) : Except Err Object :=
  match splitCharAux ':' [] o.data with
  | some p => Except.ok ⟨p.1, p.2⟩
  | none => Except.error Err.ParseError

/-- Modelled from the spec (§6, pkg `tuple` is outside the provided
source): `tuple.ConvertUser` is total; the bare-literal branch of its
grammar is modelled, which every claim below is insensitive to. -/
def ConvertUser (s : String) : User := User.literal s

/-- `PermissionService.Check`: parse the object (propagating a parse
error), index the schema by the object's namespace, search the actions
for `a` (no match leaves `child` nil and returns
`ActionCannotFoundError`), then build the request with depth `d` and
dispatch through `c`. -/
def Check (sch : Schema) (repo : Repo) (fuel : Nat) (s a o : String)
    (d : Int) : Option (Bool × Option Err) :=
  match ConvertObject o with
  | Except.error e => some (false, some e)
  | Except.ok object =>
      match findAction (findEntity sch object.Namespace).Actions a with
      | none => some (false, some Err.ActionCannotFoundError)
      | some child => cRun repo fuel object (ConvertUser s) child d

/-! ## Helper lemmas about the combinators -/

/-- A `(false, nil)` arrival is the only event the `union` loop skips:
skipping `k ≤ n` of them leaves a loop with `n - k` iterations. -/
lemma unionLoop_skip :
    ∀ (k n : Nat), k ≤ n → ∀ evs,
      unionLoop n (List.replicate k (Ev.arrive (sendDecision false none)) ++ evs) =
        unionLoop (n - k) evs := by
  intro k
  induction k with
  | zero => intro n _ evs; simp
  | succ k ih =>
    intro n hk evs
    cases n with
    | zero => exact absurd hk (by omega)
    | succ m =>
      rw [List.replicate_succ, List.cons_append]
      simp only [unionLoop, sendDecision]
      rw [Nat.succ_sub_succ]
      simpa using ih m (Nat.le_of_succ_le_succ hk) evs

/-- A `(true, nil)` arrival is the only event the `intersection` loop
skips. -/
lemma intersectionLoop_skip :
    ∀ (k n : Nat), k ≤ n → ∀ evs,
      intersectionLoop n (List.replicate k (Ev.arrive (sendDecision true none)) ++ evs) =
        intersectionLoop (n - k) evs := by
  intro k
  induction k with
  | zero => intro n _ evs; simp
  | succ k ih =>
    intro n hk evs
    cases n with
    | zero => exact absurd hk (by omega)
    | succ m =>
      rw [List.replicate_succ, List.cons_append]
      simp only [intersectionLoop, sendDecision]
      rw [Nat.succ_sub_succ]
      simpa using ih m (Nat.le_of_succ_le_succ hk) evs

/-- `union` over one task folds its sole arrival as `union1`. -/
lemma unionRun_one (d : Decision) :
    unionRun 1 [Ev.arrive d] = some (union1 d) := by
  rcases d with ⟨can, err⟩
  cases can <;> cases err <;>
    simp [unionRun, unionLoop, union1, sendDecision]

/-- On a decision satisfying the allowed-implies-no-error invariant, the
union-of-one fold is the identity. -/
lemma union1_eq_self (d : Decision) (h : d.Can = true → d.Err = none) :
    union1 d = d := by
  rcases d with ⟨can, err⟩
  cases can with
  | false => cases err <;> simp [union1, sendDecision]
  | true =>
    have herr : err = none := h rfl
    subst herr
    simp [union1, sendDecision]

/-- C4 of the spec (§4.3, Union): over `N` tasks and any arrival order —
any run of non-terminating `(false, nil)` arrivals followed by the first
terminating observation — the combinator returns `(true, nil)` on a
`(true, nil)` arrival, `(false, e)` on an arrival carrying error `e`,
`(false, nil)` for `N = 0`, `(false, nil)` when all `N` report
`(false, nil)`, and `(false, CanceledError)` when the caller's
cancellation is observed first. -/
theorem union_combinator_cases :
    (∀ evs, unionRun 0 evs = some (sendDecision false none))
    ∧ (∀ n k rest, k < n →
        unionRun n (List.replicate k (Ev.arrive (sendDecision false none)) ++
          Ev.arrive (sendDecision true none) :: rest) = some (sendDecision true none))
    ∧ (∀ n k rest b e, k < n →
        unionRun n (List.replicate k (Ev.arrive (sendDecision false none)) ++
          Ev.arrive (sendDecision b (some e)) :: rest) = some (sendDecision false (some e)))
    ∧ (∀ n, unionRun n (List.replicate n (Ev.arrive (sendDecision false none))) =
        some (sendDecision false none))
    ∧ (∀ n k rest, k < n →
        unionRun n (List.replicate k (Ev.arrive (sendDecision false none)) ++
          Ev.cancel :: rest) = some (sendDecision false (some Err.CanceledError))) := by
  refine ⟨fun evs => by simp [unionRun], ?_, ?_, ?_, ?_⟩
  · intro n k rest hk
    have hn : ¬ n = 0 := by omega
    rw [unionRun, if_neg hn, unionLoop_skip k n (Nat.le_of_lt hk)]
    obtain ⟨m, hm⟩ : ∃ m, n - k = m + 1 := ⟨n - k - 1, by omega⟩
    rw [hm]
    simp [unionLoop, sendDecision]
  · intro n k rest b e hk
    have hn : ¬ n = 0 := by omega
    rw [unionRun, if_neg hn, unionLoop_skip k n (Nat.le_of_lt hk)]
    obtain ⟨m, hm⟩ : ∃ m, n - k = m + 1 := ⟨n - k - 1, by omega⟩
    rw [hm]
    cases b <;> simp [unionLoop, sendDecision]
  · intro n
    cases n with
    | zero => simp [unionRun]
    | succ m =>
      rw [unionRun, if_neg (by omega), ← List.append_nil (List.replicate _ _),
        unionLoop_skip (m + 1) (m + 1) le_rfl]
      simp [unionLoop]
  · intro n k rest hk
    have hn : ¬ n = 0 := by omega
    rw [unionRun, if_neg hn, unionLoop_skip k n (Nat.le_of_lt hk)]
    obtain ⟨m, hm⟩ : ∃ m, n - k = m + 1 := ⟨n - k - 1, by omega⟩
    rw [hm]
    simp [unionLoop]

/-- Closed-instance witness for `union_combinator_cases`. -/
theorem union_combinator_cases_witness :
    unionRun 2 (List.replicate 1 (Ev.arrive (sendDecision false none)) ++
      Ev.arrive (sendDecision true none) :: []) = some (sendDecision true none)
    ∧ unionRun 2 (List.replicate 0 (Ev.arrive (sendDecision false none)) ++
      Ev.arrive (sendDecision false (some (Err.StoreError "x"))) :: []) =
        some (sendDecision false (some (Err.StoreError "x")))
    ∧ unionRun 2 (List.replicate 2 (Ev.arrive (sendDecision false none))) =
        some (sendDecision false none)
    ∧ unionRun 3 (List.replicate 1 (Ev.arrive (sendDecision false none)) ++
      Ev.cancel :: []) = some (sendDecision false (some Err.CanceledError)) :=
  ⟨union_combinator_cases.2.1 2 1 [] (by decide),
   union_combinator_cases.2.2.1 2 0 [] false (Err.StoreError "x") (by decide),
   union_combinator_cases.2.2.2.1 2,
   union_combinator_cases.2.2.2.2 3 1 [] (by decide)⟩

/-- C5 of the spec (§4.3, Intersection): symmetric with true/false
swapped — first `(false, nil)` arrival yields `(false, nil)`, first
error yields `(false, e)`, `N = 0` yields `(false, nil)` (the
documented non-classical convention, not vacuous truth), all-true
yields `(true, nil)` (for `N ≥ 1`, the `N = 0` convention taking
precedence otherwise), and observed cancellation yields
`(false, CanceledError)` — for every arrival order. -/
theorem intersection_combinator_cases :
    (∀ evs, intersectionRun 0 evs = some (sendDecision false none))
    ∧ (∀ n k rest, k < n →
        intersectionRun n (List.replicate k (Ev.arrive (sendDecision true none)) ++
          Ev.arrive (sendDecision false none) :: rest) = some (sendDecision false none))
    ∧ (∀ n k rest b e, k < n →
        intersectionRun n (List.replicate k (Ev.arrive (sendDecision true none)) ++
          Ev.arrive (sendDecision b (some e)) :: rest) = some (sendDecision false (some e)))
    ∧ (∀ n, 0 < n →
        intersectionRun n (List.replicate n (Ev.arrive (sendDecision true none))) =
          some (sendDecision true none))
    ∧ (∀ n k rest, k < n →
        intersectionRun n (List.replicate k (Ev.arrive (sendDecision true none)) ++
          Ev.cancel :: rest) = some (sendDecision false (some Err.CanceledError))) := by
  refine ⟨fun evs => by simp [intersectionRun], ?_, ?_, ?_, ?_⟩
  · intro n k rest hk
    have hn : ¬ n = 0 := by omega
    rw [intersectionRun, if_neg hn, intersectionLoop_skip k n (Nat.le_of_lt hk)]
    obtain ⟨m, hm⟩ : ∃ m, n - k = m + 1 := ⟨n - k - 1, by omega⟩
    rw [hm]
    simp [intersectionLoop, sendDecision]
  · intro n k rest b e hk
    have hn : ¬ n = 0 := by omega
    rw [intersectionRun, if_neg hn, intersectionLoop_skip k n (Nat.le_of_lt hk)]
    obtain ⟨m, hm⟩ : ∃ m, n - k = m + 1 := ⟨n - k - 1, by omega⟩
    rw [hm]
    cases b <;> simp [intersectionLoop, sendDecision]
  · intro n hn
    rw [intersectionRun, if_neg (by omega), ← List.append_nil (List.replicate _ _),
      intersectionLoop_skip n n le_rfl]
    simp [intersectionLoop]
  · intro n k rest hk
    have hn : ¬ n = 0 := by omega
    rw [intersectionRun, if_neg hn, intersectionLoop_skip k n (Nat.le_of_lt hk)]
    obtain ⟨m, hm⟩ : ∃ m, n - k = m + 1 := ⟨n - k - 1, by omega⟩
    rw [hm]
    simp [intersectionLoop]

/-- Closed-instance witness for `intersection_combinator_cases`. -/
theorem intersection_combinator_cases_witness :
    intersectionRun 2 (List.replicate 1 (Ev.arrive (sendDecision true none)) ++
      Ev.arrive (sendDecision false none) :: []) = some (sendDecision false none)
    ∧ intersectionRun 2 (List.replicate 0 (Ev.arrive (sendDecision true none)) ++
      Ev.arrive (sendDecision true (some (Err.StoreError "x"))) :: []) =
        some (sendDecision false (some (Err.StoreError "x")))
    ∧ intersectionRun 2 (List.replicate 2 (Ev.arrive (sendDecision true none))) =
        some (sendDecision true none)
    ∧ intersectionRun 3 (List.replicate 1 (Ev.arrive (sendDecision true none)) ++
      Ev.cancel :: []) = some (sendDecision false (some Err.CanceledError)) :=
  ⟨intersection_combinator_cases.2.1 2 1 [] (by decide),
   intersection_combinator_cases.2.2.1 2 0 [] true (Err.StoreError "x") (by decide),
   intersection_combinator_cases.2.2.2.1 2 (by decide),
   intersection_combinator_cases.2.2.2.2 3 1 [] (by decide)⟩

/-! ## The allowed-implies-no-error invariant -/

/-- Every decision in the list has `Can = true → Err = nil`. -/
def emissionsInv (ds : List Decision) : Prop :=
  ∀ d ∈ ds, d.Can = true → d.Err = none

lemma emissionsInv_append {a b : List Decision}
    (ha : emissionsInv a) (hb : emissionsInv b) : emissionsInv (a ++ b) := by
  intro d hd
  rcases List.mem_append.mp hd with h | h
  · exact ha d h
  · exact hb d h

/-- The union-of-one fold never produces an allowed, erroneous decision. -/
lemma union1_inv (d : Decision) :
    (union1 d).Can = true → (union1 d).Err = none := by
  unfold union1 sendDecision
  split
  · intro _; rfl
  · split
    · intro h; exact absurd h (by simp)
    · intro _; rfl

/-- Every result of the `union` loop satisfies the invariant. -/
lemma unionLoop_inv :
    ∀ (evs : List Ev) (n : Nat) (d : Decision),
      unionLoop n evs = some d → d.Can = true → d.Err = none := by
  intro evs
  induction evs with
  | nil =>
    intro n d h
    cases n with
    | zero =>
      simp only [unionLoop, Option.some.injEq] at h
      subst h
      intro hc
      exact absurd hc (by simp [sendDecision])
    | succ m => exact absurd h (by simp [unionLoop])
  | cons ev rest ih =>
    intro n d h
    cases n with
    | zero =>
      simp only [unionLoop, Option.some.injEq] at h
      subst h
      intro hc
      exact absurd hc (by simp [sendDecision])
    | succ i =>
      cases ev with
      | cancel =>
        simp only [unionLoop, Option.some.injEq] at h
        subst h
        intro hc
        exact absurd hc (by simp [sendDecision])
      | arrive d0 =>
        simp only [unionLoop] at h
        split at h
        · rw [Option.some.injEq] at h
          subst h
          intro _; rfl
        · split at h
          · rw [Option.some.injEq] at h
            subst h
            intro hc
            exact absurd hc (by simp [sendDecision])
          · exact ih i d h

/-- Every result of the `intersection` loop satisfies the invariant. -/
lemma intersectionLoop_inv :
    ∀ (evs : List Ev) (n : Nat) (d : Decision),
      intersectionLoop n evs = some d → d.Can = true → d.Err = none := by
  intro evs
  induction evs with
  | nil =>
    intro n d h
    cases n with
    | zero =>
      simp only [intersectionLoop, Option.some.injEq] at h
      subst h
      intro _; rfl
    | succ m => exact absurd h (by simp [intersectionLoop])
  | cons ev rest ih =>
    intro n d h
    cases n with
    | zero =>
      simp only [intersectionLoop, Option.some.injEq] at h
      subst h
      intro _; rfl
    | succ i =>
      cases ev with
      | cancel =>
        simp only [intersectionLoop, Option.some.injEq] at h
        subst h
        intro hc
        exact absurd hc (by simp [sendDecision])
      | arrive d0 =>
        simp only [intersectionLoop] at h
        split at h
        · rw [Option.some.injEq] at h
          subst h
          intro hc
          exact absurd hc (by simp [sendDecision])
        · split at h
          · rw [Option.some.injEq] at h
            subst h
            intro hc
            exact absurd hc (by simp [sendDecision])
          · exact ih i d h

/-- Every decision the fact scan emits satisfies the invariant,
whatever the recursive resolver returns. -/
lemma scanStep_inv (rec : Object → String → Int → Option (List Decision × Int))
    (subject : User) :
    ∀ (users : List User) (depth : Int) (ds : List Decision) (d2 : Int),
      scanStep rec subject users depth = some (ds, d2) → emissionsInv ds := by
  intro users
  induction users with
  | nil =>
    intro depth ds d2 h
    simp only [scanStep, Option.some.injEq, Prod.mk.injEq] at h
    obtain ⟨h1, _⟩ := h
    subst h1
    intro d hd hc
    simp only [List.mem_singleton] at hd
    subst hd
    rfl
  | cons t rest ih =>
    intro depth ds d2 h
    unfold scanStep at h
    split at h
    · rw [Option.some.injEq, Prod.mk.injEq] at h
      obtain ⟨h1, _⟩ := h
      subst h1
      intro d hd hc
      simp only [List.mem_singleton] at hd
      subst hd
      rfl
    · split at h
      · exact ih depth ds d2 h
      · split at h
        · exact absurd h (by simp)
        · split at h
          · exact absurd h (by simp)
          · rw [Option.some.injEq, Prod.mk.injEq] at h
            obtain ⟨h1, _⟩ := h
            subst h1
            intro d hd
            simp only [List.mem_singleton] at hd
            subst hd
            exact union1_inv _

/-- Every decision the leaf `check` task emits satisfies the invariant. -/
lemma checkRun_inv (repo : Repo) :
    ∀ (fuel : Nat) (obj : Object) (rel : String) (subject : User) (depth : Int)
      (ds : List Decision) (d2 : Int),
      checkRun repo fuel obj rel subject depth = some (ds, d2) → emissionsInv ds := by
  intro fuel obj rel subject depth ds d2 h
  cases fuel with
  | zero => exact absurd h (by simp [checkRun])
  | succ f =>
    have hpre : emissionsInv
        (if depth ≤ 0 then [sendDecision false (some Err.DepthError)] else []) := by
      split
      · intro d hd hc
        simp only [List.mem_singleton] at hd
        subst hd
        exact absurd hc (by simp [sendDecision])
      · intro d hd
        exact absurd hd (List.not_mem_nil d)
    simp only [checkRun] at h
    split at h
    · rw [Option.some.injEq, Prod.mk.injEq] at h
      obtain ⟨h1, _⟩ := h
      subst h1
      exact hpre
    · split at h
      · exact absurd h (by simp)
      · rw [Option.some.injEq, Prod.mk.injEq] at h
        obtain ⟨h1, _⟩ := h
        subst h1
        exact emissionsInv_append hpre (scanStep_inv _ subject _ _ _ _ (by assumption))

/-- The `union` fold over child tasks satisfies the invariant. -/
lemma unionFoldH_inv (rec : Child → Int → Option (List Decision × Int)) :
    ∀ (children : List Child) (depth : Int) (d : Decision) (d2 : Int),
      unionFoldH rec children depth = some (d, d2) → d.Can = true → d.Err = none := by
  intro children
  induction children with
  | nil =>
    intro depth d d2 h
    simp only [unionFoldH, Option.some.injEq, Prod.mk.injEq] at h
    obtain ⟨h1, _⟩ := h
    subst h1
    intro hc
    exact absurd hc (by simp [sendDecision])
  | cons c rest ih =>
    intro depth d d2 h
    unfold unionFoldH at h
    split at h
    · exact absurd h (by simp)
    · split at h
      · exact absurd h (by simp)
      · split at h
        · rw [Option.some.injEq, Prod.mk.injEq] at h
          obtain ⟨h1, _⟩ := h
          subst h1
          intro _; rfl
        · split at h
          · rw [Option.some.injEq, Prod.mk.injEq] at h
            obtain ⟨h1, _⟩ := h
            subst h1
            intro hc
            exact absurd hc (by simp [sendDecision])
          · exact ih _ d d2 h

/-- The `intersection` fold over child tasks satisfies the invariant. -/
lemma intersectionFoldH_inv (rec : Child → Int → Option (List Decision × Int)) :
    ∀ (children : List Child) (depth : Int) (d : Decision) (d2 : Int),
      intersectionFoldH rec children depth = some (d, d2) → d.Can = true → d.Err = none := by
  intro children
  induction children with
  | nil =>
    intro depth d d2 h
    simp only [intersectionFoldH, Option.some.injEq, Prod.mk.injEq] at h
    obtain ⟨h1, _⟩ := h
    subst h1
    intro _; rfl
  | cons c rest ih =>
    intro depth d d2 h
    unfold intersectionFoldH at h
    split at h
    · exact absurd h (by simp)
    · split at h
      · exact absurd h (by simp)
      · split at h
        · rw [Option.some.injEq, Prod.mk.injEq] at h
          obtain ⟨h1, _⟩ := h
          subst h1
          intro hc
          exact absurd hc (by simp [sendDecision])
        · split at h
          · rw [Option.some.injEq, Prod.mk.injEq] at h
            obtain ⟨h1, _⟩ := h
            subst h1
            intro hc
            exact absurd hc (by simp [sendDecision])
          · exact ih _ d d2 h

/-- Every decision any compiled task emits satisfies the invariant. -/
lemma taskRun_inv (repo : Repo) (subject : User) (obj : Object) :
    ∀ (fuel : Nat) (child : Child) (depth : Int) (ds : List Decision) (d2 : Int),
      taskRun repo subject obj fuel child depth = some (ds, d2) → emissionsInv ds := by
  intro fuel child depth ds d2 h
  cases fuel with
  | zero => exact absurd h (by simp [taskRun])
  | succ f =>
    cases child with
    | leaf t v =>
      cases t with
      | tupleToUserSet => exact checkRun_inv repo _ obj v subject depth ds d2 h
      | computedUserSet => exact checkRun_inv repo _ obj v subject depth ds d2 h
      | other =>
        simp only [taskRun, Option.some.injEq, Prod.mk.injEq] at h
        obtain ⟨h1, _⟩ := h
        subst h1
        intro d hd hc
        simp only [failRun, List.mem_singleton] at hd
        subst hd
        exact absurd hc (by simp [sendDecision])
    | rewrite t children =>
      cases t with
      | union =>
        simp only [taskRun] at h
        split at h
        · exact absurd h (by simp)
        · rw [Option.some.injEq, Prod.mk.injEq] at h
          obtain ⟨h1, _⟩ := h
          subst h1
          intro d hd
          simp only [List.mem_singleton] at hd
          subst hd
          exact unionFoldH_inv _ children depth _ _ (by assumption)
      | intersection =>
        simp only [taskRun] at h
        split at h
        · rw [Option.some.injEq, Prod.mk.injEq] at h
          obtain ⟨h1, _⟩ := h
          subst h1
          intro d hd hc
          simp only [List.mem_singleton] at hd
          subst hd
          exact absurd hc (by simp [sendDecision])
        · split at h
          · exact absurd h (by simp)
          · rw [Option.some.injEq, Prod.mk.injEq] at h
            obtain ⟨h1, _⟩ := h
            subst h1
            intro d hd
            simp only [List.mem_singleton] at hd
            subst hd
            exact intersectionFoldH_inv _ _ depth _ _ (by assumption)
      | other =>
        simp only [taskRun, Option.some.injEq, Prod.mk.injEq] at h
        obtain ⟨h1, _⟩ := h
        subst h1
        intro d hd hc
        simp only [failRun, List.mem_singleton] at hd
        subst hd
        exact absurd hc (by simp [sendDecision])

/-- C10: no operation of the engine yields a Decision that is
simultaneously allowed and erroneous: every result of the `union`
combinator, of the `intersection` combinator, every decision a leaf
`check` task emits, and the decision of a `fail` task satisfy
`Can = true → Err = nil`. -/
theorem decision_invariant :
    (∀ n evs d, unionRun n evs = some d → d.Can = true → d.Err = none)
    ∧ (∀ n evs d, intersectionRun n evs = some d → d.Can = true → d.Err = none)
    ∧ (∀ repo fuel obj rel subject depth ds d2,
        checkRun repo fuel obj rel subject depth = some (ds, d2) →
        ∀ d ∈ ds, d.Can = true → d.Err = none)
    ∧ (∀ e, ∀ d ∈ failRun e, d.Can = true → d.Err = none) := by
  refine ⟨?_, ?_, ?_, ?_⟩
  · intro n evs d h
    rw [unionRun] at h
    split at h
    · rw [Option.some.injEq] at h
      subst h
      intro hc
      exact absurd hc (by simp [sendDecision])
    · exact unionLoop_inv evs n d h
  · intro n evs d h
    rw [intersectionRun] at h
    split at h
    · rw [Option.some.injEq] at h
      subst h
      intro hc
      exact absurd hc (by simp [sendDecision])
    · exact intersectionLoop_inv evs n d h
  · intro repo fuel obj rel subject depth ds d2 h
    exact checkRun_inv repo fuel obj rel subject depth ds d2 h
  · intro e d hd hc
    simp only [failRun, List.mem_singleton] at hd
    subst hd
    exact absurd hc (by simp [sendDecision])

/-- C6: a union of one is the identity.  First conjunct: the Union
combinator over a single task whose decision satisfies the engine's
allowed-implies-no-error invariant (which `taskRun_inv` shows every
engine task maintains) returns exactly that decision.
Second conjunct: the engine entry point `c`, which wraps the compiled
root task in a union-of-one, returns the root task's own reported
decision unchanged. -/
theorem union_of_one_identity :
    (∀ d : Decision, (d.Can = true → d.Err = none) →
      unionRun 1 [Ev.arrive d] = some d)
    ∧ (∀ (repo : Repo) (fuel : Nat) (obj : Object) (subject : User)
        (child : Child) (depth : Int) (ds : List Decision) (d2 : Int) (d : Decision),
        taskRun repo subject obj fuel child depth = some (ds, d2) →
        ds.head? = some d →
        cRun repo fuel obj subject child depth = some (d.Can, d.Err)) := by
  constructor
  · intro d h
    rw [unionRun_one, union1_eq_self d h]
  · intro repo fuel obj subject child depth ds d2 d h hhead
    have hmem : d ∈ ds := by
      cases ds with
      | nil => exact absurd hhead (by simp)
      | cons a t =>
        simp only [List.head?_cons, Option.some.injEq] at hhead
        subst hhead
        exact List.mem_cons_self a t
    have hinv : d.Can = true → d.Err = none :=
      taskRun_inv repo subject obj fuel child depth ds d2 h d hmem
    simp only [cRun, h, hhead, union1_eq_self d hinv]

/-! ## Concrete scenarios -/

/-- Object `doc:1`. -/
def docObj : Object := ⟨"doc", "1"⟩

/-- The subject `alice`. -/
def alice : User := User.literal "alice"

/-- A store with no facts at all. -/
def repoEmpty : Repo := fun _ _ _ => Except.ok []

/-- A store holding the single literal grant `(doc, 1, owner) → alice`. -/
def repoGrant : Repo := fun _ _ rel =>
  if rel = "owner" then Except.ok [⟨"", "alice", ""⟩] else Except.ok []

/-- A store whose every query fails. -/
def repoErr : Repo := fun _ _ _ => Except.error (Err.StoreError "boom")

/-- A store where `(doc, 1, a)` and `(doc, 1, b)` each hold a single
userset edge (to `g:1#m` and `h:1#m` respectively) and everything else
is empty. -/
def repoEdges : Repo := fun ns id rel =>
  if ns = "doc" ∧ id = "1" ∧ rel = "a" then Except.ok [⟨"g", "1", "m"⟩]
  else if ns = "doc" ∧ id = "1" ∧ rel = "b" then Except.ok [⟨"h", "1", "m"⟩]
  else Except.ok []

/-- A store where `(doc, 1, view)` holds, in order: a non-matching
literal (`bob`), a userset edge to `g:1#m`, and a matching literal
(`alice`); everything else is empty. -/
def repoScan : Repo := fun ns id rel =>
  if ns = "doc" ∧ id = "1" ∧ rel = "view" then
    Except.ok [⟨"", "bob", ""⟩, ⟨"g", "1", "m"⟩, ⟨"", "alice", ""⟩]
  else Except.ok []

/-- Witness for `union_of_one_identity` at concrete inputs: the
combinator conjunct at the decision `(true, nil)`, and the entry-point
conjunct on a leaf task over the empty store (which reports
`(false, nil)`). -/
theorem union_of_one_identity_witness :
    unionRun 1 [Ev.arrive (sendDecision true none)] = some (sendDecision true none)
    ∧ cRun repoEmpty 3 docObj alice (Child.leaf LeafType.computedUserSet "owner") 2 =
        some (false, none) :=
  ⟨union_of_one_identity.1 (sendDecision true none) (fun _ => rfl),
   union_of_one_identity.2 repoEmpty 3 docObj alice
     (Child.leaf LeafType.computedUserSet "owner") 2
     [sendDecision false none] 2 (sendDecision false none) (by decide) rfl⟩

/-- C1 (evidence of the code bug): the depth guard does not terminate
the leaf task.  At remaining depth `0` the task reports
`(false, DepthError)` — but, the `return` being missing in the source,
it then issues the store query and reports a *second* decision, whose
value depends on the store: `(false, nil)` over the empty store,
`(true, nil)` over a store granting the subject.  The claim's "no store
query is issued and no further Decision is produced" fails. -/
theorem depth_guard_not_immediate :
    checkRun repoEmpty 3 docObj "owner" alice 0 =
      some ([sendDecision false (some Err.DepthError), sendDecision false none], 0)
    ∧ checkRun repoGrant 3 docObj "owner" alice 0 =
      some ([sendDecision false (some Err.DepthError), sendDecision true none], 0) := by
  constructor
  · decide
  · decide

/-- C2 (evidence of the code bug): a leaf task does not always report
exactly one decision.  With the store failing and depth `2`, the task
reports zero decisions (the `fail(err)` closure is discarded without
being invoked); with the empty store and depth `0`, it reports two (the
depth-error report lacks its `return`). -/
theorem task_decision_count_violations :
    (checkRun repoErr 3 docObj "owner" alice 2 = some ([], 2))
    ∧ ((checkRun repoEmpty 3 docObj "owner" alice 0).map
        (fun p => p.1.length) = some 2) := by
  constructor
  · decide
  · decide

/-- C3 (evidence of the code bug): on a store error the leaf task
reports *no* decision at all — the source builds `fail(err)` but drops
the returned `CheckFunction` without invoking it — rather than the
claimed `(false, store error)`.  The second conjunct shows what the
built-but-discarded `fail` task would have reported had it been run. -/
theorem store_error_not_reported :
    checkRun repoErr 3 docObj "owner" alice 2 = some ([], 2)
    ∧ failRun (Err.StoreError "boom") =
        [sendDecision false (some (Err.StoreError "boom"))] := by
  constructor
  · decide
  · decide

/-- C8 (evidence of the code bug): the depth budget is shared by
reference, not passed by copy.  Under the union of the two leaf tasks
`a` and `b` of `repoEdges`, each of which follows one userset edge:
run alone at depth `2` either branch succeeds with `(false, nil)` and
leaves the shared cell at `1` — the original request's depth is *not*
unchanged after the branch returns — and in the combined run the first
branch's decrement is observed by its sibling, which therefore starts
at `1`, decrements to `0`, and aborts with `DepthError`, so the union
reports `(false, DepthError)` where the claim implies `(false, nil)`. -/
theorem depth_shared_across_siblings :
    taskRun repoEdges alice docObj 6 (Child.leaf LeafType.computedUserSet "a") 2 =
      some ([sendDecision false none], 1)
    ∧ taskRun repoEdges alice docObj 6 (Child.leaf LeafType.computedUserSet "b") 2 =
      some ([sendDecision false none], 1)
    ∧ taskRun repoEdges alice docObj 6
        (Child.rewrite RewriteType.union
          [Child.leaf LeafType.computedUserSet "a",
           Child.leaf LeafType.computedUserSet "b"]) 2 =
      some ([sendDecision false (some Err.DepthError)], 0) := by
  refine ⟨by decide, by decide, by decide⟩

/-- C7: with a well-formed object string and an action name that no
action of the object's namespace carries, `Check` returns
`(false, ActionCannotFoundError)` — for *every* store and every fuel
(fuel `0` included, on which any rule-node evaluation would get stuck),
so no rule node is evaluated and no store query issued. -/
theorem unknown_action_rejected :
    ∀ (sch : Schema) (repo : Repo) (fuel : Nat) (s a o : String) (d : Int)
      (object : Object),
      ConvertObject o = Except.ok object →
      findAction (findEntity sch object.Namespace).Actions a = none →
      Check sch repo fuel s a o d = some (false, some Err.ActionCannotFoundError) := by
  intro sch repo fuel s a o d object hobj hact
  simp only [Check, hobj, hact]

/-- A one-action schema: namespace `doc` with the single action `view`. -/
def schemaDoc : Schema :=
  ⟨[("doc", ⟨[⟨"view", Child.leaf LeafType.computedUserSet "owner"⟩]⟩)]⟩

/-- Witness for `unknown_action_rejected`: the action `delete` does not
exist on namespace `doc`. -/
theorem unknown_action_rejected_witness :
    Check schemaDoc repoEmpty 3 "alice" "delete" "doc:1" 5 =
      some (false, some Err.ActionCannotFoundError) :=
  unknown_action_rejected schemaDoc repoEmpty 3 "alice" "delete" "doc:1" 5
    ⟨"doc", "1"⟩ rfl rfl

/-- Witness for `decision_invariant` at a concrete input: the leaf task
over `repoGrant` at depth `2` emits exactly `(true, nil)`, and the
invariant conjunct for leaf tasks applied there yields its error-free
conclusion. -/
theorem decision_invariant_witness :
    (sendDecision true none).Err = none :=
  decision_invariant.2.2.1 repoGrant 3 docObj "owner" alice 2
    [sendDecision true none] 2 rfl (sendDecision true none) (by simp) rfl

/-- Scanning past leading literal, non-matching facts does not change
the fact scan's behaviour. -/
lemma scanStep_append (rec : Object → String → Int → Option (List Decision × Int))
    (subject : User) :
    ∀ (pre : List User),
      (∀ u ∈ pre, u.IsUser = true ∧ u.Equals subject = false) →
      ∀ (us : List User) (depth : Int),
        scanStep rec subject (pre ++ us) depth = scanStep rec subject us depth := by
  intro pre
  induction pre with
  | nil => intro _ us depth; rfl
  | cons t ts ih =>
    intro hpre us depth
    have ht := hpre t (List.mem_cons_self t ts)
    obtain ⟨id, rfl⟩ : ∃ id, t = User.literal id := by
      cases t with
      | literal id => exact ⟨id, rfl⟩
      | userset o r => exact absurd ht.1 (by simp [User.IsUser])
    rw [List.cons_append]
    have hstep : scanStep rec subject (User.literal id :: (ts ++ us)) depth =
        scanStep rec subject (ts ++ us) depth := by
      simp only [scanStep, ht.2, Bool.false_eq_true, if_false]
    rw [hstep]
    exact ih (fun u hu => hpre u (List.mem_cons_of_mem _ hu)) us depth

/-- C9: when the store scan meets a userset edge (not equal to the
request's subject) after only non-matching literal facts, the leaf
task's decision is exactly the single recursive leaf resolution on the
edge's `(object, relation)` at depth decremented by one, folded through
the union-of-one (`union1`, shown equal to the Union combinator over
the one arrival by `unionRun_one`); the facts in `rest`, after the
first qualifying edge, are never examined — the right-hand side does
not depend on `rest`.  The depth hypothesis reflects the spec's leaf
resolver, whose scan is only reached at positive remaining depth. -/
theorem leaf_first_userset_edge :
    ∀ (repo : Repo) (fuel : Nat) (obj : Object) (rel : String) (subject : User)
      (depth : Int) (pre rest : List User) (eo : Object) (er : String),
      0 < depth →
      (∀ u ∈ pre, u.IsUser = true ∧ u.Equals subject = false) →
      (User.userset eo er).Equals subject = false →
      getUsers repo obj rel = Except.ok (pre ++ User.userset eo er :: rest) →
      checkRun repo (fuel + 1) obj rel subject depth =
        (match checkRun repo fuel eo er subject (depth - 1) with
         | none => none
         | some (ds, d2) =>
             match ds.head? with
             | none => none
             | some d => some ([union1 d], d2)) := by
  intro repo fuel obj rel subject depth pre rest eo er hd hpre hne hget
  have hnle : ¬ depth ≤ 0 := by omega
  simp only [checkRun, hget, if_neg hnle, List.nil_append]
  rw [scanStep_append _ subject pre hpre]
  simp only [scanStep, hne, Bool.false_eq_true, if_false]
  cases hrec : checkRun repo fuel eo er subject (depth - 1) with
  | none => rfl
  | some p =>
    obtain ⟨ds, d2⟩ := p
    cases hh : ds.head? with
    | none => simp [hh]
    | some d => simp [hh]

/-- Witness for `leaf_first_userset_edge` on `repoScan`: the edge to
`g:1#m` sits between a non-matching literal (`bob`) and a matching one
(`alice`); the task reports the recursion's `(false, nil)` at depth
decreased to `1`, never reaching the matching later fact. -/
theorem leaf_first_userset_edge_witness :
    checkRun repoScan 3 docObj "view" alice 2 =
      some ([sendDecision false none], 1) := by
  have h := leaf_first_userset_edge repoScan 2 docObj "view" alice 2
    [User.literal "bob"] [User.literal "alice"] ⟨"g", "1"⟩ "m"
    (by decide) (by decide) (by decide) rfl
  rw [h]
  decide

end Permify
